import Mathlib

/-!
Shallow embedding of `rcu_nowait.h` (class `Base::RcuDataItem` and class
template `Base::RcuDataNoWait<T, BUFSZ>`), together with proofs about the
reader protocol, the publisher protocol and the reference-counting
capability.

Modelling conventions:
* `std::atomic_long` counters become `Int` (two's-complement wraparound of
  `long` is unreachable for the quantities involved; the signed semantics,
  in particular the absence of an underflow guard, is kept).
* `m_head` is an `atomic_long` that starts at `0` and is only ever
  incremented by the single publisher, so it is modelled as a `Nat`.
* The payload objects pointed to by the `T*` entries of `m_data` are
  modelled as `Slot` records carrying an object identity `sid` (standing
  for the pointer value), the inherited `RcuDataItem` base subobject, and
  a payload value `val : α`.  The array `m_data : std::array<T*,BUFSZ>` is
  a `List (Slot α)`; `std::swap` of two `T*` entries is swapping two list
  entries, which moves whole records and therefore no payload contents.
* The retry loop of `read()` and the scan loop of `initUpdate()` depend on
  values observed from shared atomics; those observations are passed in
  explicitly (`obs` is the sequence of values returned by the successive
  re-loads of `m_head`; `fuel` bounds the scan of `initUpdate`, whose
  termination is settled separately).
-/

/-- Base class `Base::RcuDataItem`: a single `mutable std::atomic_long
m_refCounter{}`, value-initialised to zero. -/
structure RcuDataItem where
  m_refCounter : Int
  deriving Repr, DecidableEq

namespace RcuDataItem

/-- `RcuDataItem() = default`: the member initialiser `{}` zeroes the counter. -/
def mkDefault : RcuDataItem := { m_refCounter := 0 }

/-- `RcuDataItem(const RcuDataItem &rhs) {}`: the copy constructor ignores
`rhs`; the member initialiser `{}` still runs, so the copy's counter is 0. -/
def copyCtor (_rhs : RcuDataItem) : RcuDataItem := { m_refCounter := 0 }

/-- `RcuDataItem &operator=(const RcuDataItem &rhs) { return *this; }`:
copy assignment leaves the target unchanged. -/
def assign (lhs _rhs : RcuDataItem) : RcuDataItem := lhs

/-- `void release() const { m_refCounter.fetch_sub(1, release); }` -/
def release (i : RcuDataItem) : RcuDataItem := { m_refCounter := i.m_refCounter - 1 }

/-- `void acquire() { m_refCounter.fetch_add(1, release); }` -/
def acquire (i : RcuDataItem) : RcuDataItem := { m_refCounter := i.m_refCounter + 1 }

/-- `long queryRefCount() const { return m_refCounter.load(acquire); }` -/
def queryRefCount (i : RcuDataItem) : Int := i.m_refCounter

/-- One step of an interleaving: `true` is an `acquire()` call, `false` a
`release()` call. -/
def applyOp (i : RcuDataItem) (op : Bool) : RcuDataItem :=
  if op then i.acquire else i.release

/-- A finite interleaving of `acquire`/`release` calls, applied in order. -/
def applyOps (i : RcuDataItem) (ops : List Bool) : RcuDataItem :=
  ops.foldl applyOp i

end RcuDataItem

/-- A payload object of type `T` deriving from `RcuDataItem`: the base
subobject, a payload value, and an object identity `sid` standing for the
object's address (the value of a `T*` pointing to it). -/
structure Slot (α : Type) where
  sid : Nat
  base : RcuDataItem
  val : α
  deriving Repr, DecidableEq

namespace Slot

/-- Reference count of the payload object, read through the base class. -/
def refCount (s : Slot α) : Int := s.base.queryRefCount

/-- `acquire()` on the payload object. -/
def acq (s : Slot α) : Slot α := { s with base := s.base.acquire }

/-- `release()` on the payload object. -/
def rel (s : Slot α) : Slot α := { s with base := s.base.release }

/-- Copy construction of a `T`: derived value members are copied, the
`RcuDataItem` base is built by `RcuDataItem::copyCtor`, and the new object
lives at a fresh address `newSid`. -/
def copyMake (src : Slot α) (newSid : Nat) : Slot α :=
  { sid := newSid, base := RcuDataItem.copyCtor src.base, val := src.val }

/-- Copy assignment of a `T` into an existing object: derived value members
are copied from `src`, the base subobject goes through
`RcuDataItem::operator=` (which keeps the target's counter), and the
target's address is of course unchanged. -/
def assignFrom (dst src : Slot α) : Slot α :=
  { sid := dst.sid, base := dst.base.assign src.base, val := src.val }

end Slot

instance {α : Type} [Inhabited α] : Inhabited (Slot α) :=
  ⟨⟨0, RcuDataItem.mkDefault, default⟩⟩

/-- Apply `f` to the element at index `p` of `l`; out-of-range `p` leaves
`l` unchanged. -/
def modifyAt {α : Type} (l : List (Slot α)) (p : Nat) (f : Slot α → Slot α) :
    List (Slot α) :=
  match l, p with
  | [], _ => []
  | s :: t, 0 => f s :: t
  | s :: t, p + 1 => s :: modifyAt t p f

/-- `rawP->acquire()` on the object at index `p`. -/
def acquireAt {α : Type} (l : List (Slot α)) (p : Nat) : List (Slot α) :=
  modifyAt l p Slot.acq

/-- `ptr->release()` on the object at index `p`. -/
def releaseAt {α : Type} (l : List (Slot α)) (p : Nat) : List (Slot α) :=
  modifyAt l p Slot.rel

/-- `std::swap(m_data[i], m_data[j])`: the two `T*` handles are exchanged;
nothing happens if an index is out of range (never the case in the code). -/
def swapAt {α : Type} (l : List (Slot α)) (i j : Nat) : List (Slot α) :=
  match l[i]?, l[j]? with
  | some a, some b => (l.set i b).set j a
  | _, _ => l

/-- Class template `Base::RcuDataNoWait<T, BUFSZ>`: the slot-handle array
`m_data`, the template parameter `BUFSZ`, and the head counter `m_head`. -/
structure RcuDataNoWait (α : Type) where
  m_data : List (Slot α)
  bufsz : Nat
  m_head : Nat
  deriving Repr, DecidableEq

namespace RcuDataNoWait

variable {α : Type} [Inhabited α]

/-- The `static_assert(BUFSZ != 0 && (BUFSZ & (BUFSZ - 1)) == 0, ...)`. -/
def bufszValid (n : Nat) : Prop := n ≠ 0 ∧ n &&& (n - 1) = 0

instance (n : Nat) : Decidable (bufszValid n) := by
  unfold bufszValid; infer_instance

/-- Structural well-formedness of a ring: the static assertion holds and the
array really has `BUFSZ` entries. -/
def WF (r : RcuDataNoWait α) : Prop :=
  bufszValid r.bufsz ∧ r.m_data.length = r.bufsz

/-- The constructor `RcuDataNoWait(first, last)`: `std::copy` fills `m_data`
with the supplied payload objects, and `m_head{}` zero-initialises the head. -/
def ofList (n : Nat) (init : List (Slot α)) : RcuDataNoWait α :=
  { m_data := init, bufsz := n, m_head := 0 }

/-- The payload object at array index `p` (`m_data[p]`, dereferenced). -/
def slotAt (r : RcuDataNoWait α) (p : Nat) : Slot α :=
  r.m_data.getD p default

/-- `m_data[p]->queryRefCount()`. -/
def countAt (r : RcuDataNoWait α) (p : Nat) : Int :=
  (r.slotAt p).base.queryRefCount

/-- The loop of `read()`.  `cur` is the last value loaded from `m_head`,
`held` is the index whose object the `unique_ptr` currently owns (`none` on
the first iteration, when `ptr` is null), and `obs` feeds the values of the
successive re-loads of `m_head`; when `obs` is exhausted the next re-load
equals `cur` and the loop exits.  Each iteration acquires the candidate at
`cur & (BUFSZ-1)` and then `ptr.reset` releases the previously held object. -/
def readAux (data : List (Slot α)) (mask : Nat) (held : Option Nat)
    (cur : Nat) (obs : List Nat) : List (Slot α) × Nat :=
  let p := cur &&& mask
  let d1 := acquireAt data p
  let d2 := match held with
    | none => d1
    | some q => releaseAt d1 q
  match obs with
  | [] => (d2, p)
  | h :: rest => if h = cur then (d2, p) else readAux d2 mask (some p) h rest

/-- `auto read() const`: returns the ring with the reference counts updated
and the array index of the slot the returned scoped handle owns. -/
def read (r : RcuDataNoWait α) (obs : List Nat) : RcuDataNoWait α × Nat :=
  let res := readAux r.m_data (r.bufsz - 1) none r.m_head obs
  ({ r with m_data := res.1 }, res.2)

/-- Destruction (or replacement) of the scoped handle returned by `read()`:
the custom deleter calls `release()` on the owned object. -/
def releaseHandle (r : RcuDataNoWait α) (p : Nat) : RcuDataNoWait α :=
  { r with m_data := releaseAt r.m_data p }

/-- The scan loop of `initUpdate()`: starting at ring position
`pos & (BUFSZ-1)` and stepping `++nextPos`, return the first array index
holding an object with `queryRefCount() == 0`.  `fuel` bounds the number of
probes so the search is total; the unbounded loop of the source is recovered
by quantifying over `fuel`. -/
def scanFree (data : List (Slot α)) (mask : Nat) (pos : Nat) :
    Nat → Option Nat
  | 0 => none
  | fuel + 1 =>
    let p := pos &&& mask
    if (data.getD p default).base.queryRefCount = 0 then some p
    else scanFree data mask (pos + 1) fuel

/-- `T *initUpdate()`: probe the slot after the head; if its count is
nonzero, scan from two past the head for a zero-count slot and swap it into
the `head+1` position.  Returns the updated ring and the array index of the
returned `T*` (always `(head+1) & (BUFSZ-1)`), or `none` if the scan ran out
of fuel. -/
def initUpdate (r : RcuDataNoWait α) (fuel : Nat) :
    Option (RcuDataNoWait α × Nat) :=
  let mask := r.bufsz - 1
  let firstPos := (r.m_head + 1) &&& mask
  if (r.slotAt firstPos).base.queryRefCount = 0 then
    some (r, firstPos)
  else
    match scanFree r.m_data mask (r.m_head + 2) fuel with
    | none => none
    | some p => some ({ r with m_data := swapAt r.m_data firstPos p }, firstPos)

/-- `const T *publisherRead() const`: the payload object at the head. -/
def publisherRead (r : RcuDataNoWait α) : Slot α :=
  r.slotAt (r.m_head &&& (r.bufsz - 1))

/-- `void commitUpdate() { m_head.fetch_add(1, release); }` -/
def commitUpdate (r : RcuDataNoWait α) : RcuDataNoWait α :=
  { r with m_head := r.m_head + 1 }

/-- The publisher writing the new payload (with value `v`) through the `T*`
returned by `initUpdate`: a copy assignment of a `T`, so the slot's counter
and address are untouched while its value becomes `v`. -/
def writeSlot (r : RcuDataNoWait α) (p : Nat) (v : α) : RcuDataNoWait α :=
  { r with m_data := modifyAt r.m_data p (fun s => s.assignFrom ⟨0, ⟨0⟩, v⟩) }

/-- One complete sequential update cycle: read the current value with
`publisherRead` (the copy source), obtain a free slot with `initUpdate`,
write the new value `v` into it, and `commitUpdate`. -/
def updateCycle (r : RcuDataNoWait α) (v : α) (fuel : Nat) :
    Option (RcuDataNoWait α) :=
  let _cur := r.publisherRead
  match r.initUpdate fuel with
  | none => none
  | some (r1, pos) => some ((writeSlot r1 pos v).commitUpdate)

/-- A sequence of complete sequential update cycles, publishing the values
of `vs` in order. -/
def applyCycles (r : RcuDataNoWait α) (vs : List α) (fuel : Nat) :
    Option (RcuDataNoWait α) :=
  vs.foldlM (fun s v => updateCycle s v fuel) r

/-- The payload value observed through the handle returned by `read`. -/
def readValue (r : RcuDataNoWait α) (obs : List Nat) : α :=
  (slotAt (r.read obs).1 (r.read obs).2).val

/-- Fold a list of `acquire` targets over the slot array. -/
def acquireList (d : List (Slot α)) (ps : List Nat) : List (Slot α) :=
  ps.foldl acquireAt d

/-- Fold a list of `release` targets over the slot array. -/
def releaseList (d : List (Slot α)) (ps : List Nat) : List (Slot α) :=
  ps.foldl releaseAt d

/-- A sequence of `read()` calls, each driven by its own head-observation
list; returns the final ring and the list of slot indices owned by the
returned scoped handles, in call order. -/
def doReads (r : RcuDataNoWait α) : List (List Nat) → RcuDataNoWait α × List Nat
  | [] => (r, [])
  | obs :: rest =>
    let res := r.read obs
    let rec2 := doReads res.1 rest
    (rec2.1, res.2 :: rec2.2)

/-- Release the scoped handles at the given slot indices, in order. -/
def releaseAll (r : RcuDataNoWait α) (ps : List Nat) : RcuDataNoWait α :=
  ps.foldl releaseHandle r

end RcuDataNoWait

/-- A concrete payload object for concrete evaluations. -/
def slotEx (sid : Nat) (c : Int) (v : Nat) : Slot Nat := ⟨sid, ⟨c⟩, v⟩

/-- BUFSZ = 2 ring, head = 0: the slot after the head (index 1) is held by a
reader (count 1) while the published slot (index 0) is free. -/
def ringEx2 : RcuDataNoWait Nat := ⟨[slotEx 0 0 10, slotEx 1 1 20], 2, 0⟩

/-- BUFSZ = 4 ring, head = 0, all slots free. -/
def ringEx4 : RcuDataNoWait Nat :=
  ⟨[slotEx 0 0 100, slotEx 1 0 200, slotEx 2 0 300, slotEx 3 0 400], 4, 0⟩

/-- BUFSZ = 1 ring. -/
def ringEx1 : RcuDataNoWait Nat := ⟨[slotEx 0 0 5], 1, 0⟩

/-- BUFSZ = 2 ring in which every slot is referenced. -/
def ringBusy2 : RcuDataNoWait Nat := ⟨[slotEx 0 1 10, slotEx 1 1 20], 2, 0⟩

/-- The ring `initUpdate` produces from `ringEx2`: the scan wrapped past the
end of the array, found the published slot (index 0) free, and swapped it
into position 1. -/
def ringEx2AfterInit : RcuDataNoWait Nat :=
  ⟨[slotEx 1 1 20, slotEx 0 0 10], 2, 0⟩

/-- `ringEx4` after two complete update cycles publishing 7 and then 9. -/
def ringEx4After2 : RcuDataNoWait Nat :=
  ⟨[slotEx 0 0 100, slotEx 1 0 7, slotEx 2 0 9, slotEx 3 0 400], 4, 2⟩

section CounterClaims

/-- C10: `RcuDataItem`'s counter has pure integer semantics with no
underflow guard: after any interleaving of `a` `acquire()` calls and `r`
`release()` calls starting from the default-constructed (zero) counter,
`queryRefCount()` returns exactly `a - r`; an `acquire` followed by a
`release` restores the prior state; and strictly more releases than
acquires drive the count strictly negative. -/
theorem rcuDataItem_counter_integer_semantics :
    (∀ ops : List Bool,
      (RcuDataItem.applyOps RcuDataItem.mkDefault ops).queryRefCount =
        (ops.count true : Int) - (ops.count false : Int)) ∧
    (∀ i : RcuDataItem, i.acquire.release = i) ∧
    (∀ ops : List Bool, ops.count true < ops.count false →
      (RcuDataItem.applyOps RcuDataItem.mkDefault ops).queryRefCount < 0) := by
  have key : ∀ (ops : List Bool) (i : RcuDataItem),
      (RcuDataItem.applyOps i ops).queryRefCount =
        i.queryRefCount + (ops.count true : Int) - (ops.count false : Int) := by
    intro ops
    induction ops with
    | nil => intro i; simp [RcuDataItem.applyOps, RcuDataItem.queryRefCount]
    | cons op rest ih =>
      intro i
      cases op <;>
        simp [RcuDataItem.applyOps, List.foldl_cons, RcuDataItem.applyOp,
          List.count_cons] at ih ⊢ <;>
        rw [ih] <;>
        simp [RcuDataItem.queryRefCount, RcuDataItem.release,
          RcuDataItem.acquire] <;>
        ring
  refine ⟨?_, ?_, ?_⟩
  · intro ops
    rw [key]
    simp [RcuDataItem.mkDefault, RcuDataItem.queryRefCount]
  · intro i
    simp [RcuDataItem.acquire, RcuDataItem.release]
  · intro ops h
    rw [key]
    simp only [RcuDataItem.mkDefault, RcuDataItem.queryRefCount]
    omega

/-- Witness for C10 at a concrete interleaving: one acquire then two
releases gives count `-1 < 0`. -/
theorem rcuDataItem_counter_integer_semantics_witness :
    ([true, false, false].count true < [true, false, false].count false) ∧
      (RcuDataItem.applyOps RcuDataItem.mkDefault
        [true, false, false]).queryRefCount < 0 :=
  ⟨by decide,
    rcuDataItem_counter_integer_semantics.2.2 [true, false, false]
      (by decide)⟩

/-- C8: copy-constructing an `RcuDataItem` produces an item whose reference
count is zero regardless of the source's count, and copy-assignment leaves
the target's reference count unchanged: the count is never copied. -/
theorem rcuDataItem_copy_never_copies_count :
    (∀ rhs : RcuDataItem, (RcuDataItem.copyCtor rhs).queryRefCount = 0) ∧
    (∀ lhs rhs : RcuDataItem,
      (lhs.assign rhs).queryRefCount = lhs.queryRefCount) := by
  constructor
  · intro rhs; rfl
  · intro lhs rhs; rfl

end CounterClaims

namespace RcuDataNoWait

variable {α : Type}

lemma pow2_of_and_pred : ∀ n : Nat, n ≠ 0 → n &&& (n - 1) = 0 → ∃ k, n = 2 ^ k := by
  intro n
  induction n using Nat.strong_induction_on with
  | _ n ih =>
    intro hne hand
    rcases Nat.even_or_odd n with he | ho
    · obtain ⟨m, hm⟩ := he
      have h2 : n = 2 * m := by omega
      have hm0 : m ≠ 0 := by omega
      have hb : n &&& (n - 1) = 2 * (m &&& (m - 1)) := by
        have hbit := Nat.land_bit false m true (m - 1)
        simp only [Nat.bit_false, Nat.bit_true, Bool.false_and] at hbit
        have hpred : 2 * m - 1 = 2 * (m - 1) + 1 := by omega
        rw [h2, hpred]
        exact hbit
      rw [hb] at hand
      have hand2 : m &&& (m - 1) = 0 := by omega
      obtain ⟨k, hk⟩ := ih m (by omega) hm0 hand2
      exact ⟨k + 1, by rw [h2, hk]; ring⟩
    · obtain ⟨m, hm⟩ := ho
      by_cases hm0 : m = 0
      · exact ⟨0, by omega⟩
      · exfalso
        have hb : n &&& (n - 1) = 2 * m := by
          have hbit := Nat.land_bit true m false m
          simp only [Nat.bit_false, Nat.bit_true, Bool.and_false, Nat.and_self]
            at hbit
          have hpred : 2 * m + 1 - 1 = 2 * m := by omega
          rw [hm, hpred]
          exact hbit
        omega

/-- The `static_assert` predicate holds exactly for the nonzero powers of
two. -/
lemma bufszValid_iff_pow2 (n : Nat) : bufszValid n ↔ ∃ k, n = 2 ^ k := by
  constructor
  · rintro ⟨hne, hand⟩
    exact pow2_of_and_pred n hne hand
  · rintro ⟨k, rfl⟩
    refine ⟨(Nat.pos_pow_of_pos k (by norm_num)).ne', ?_⟩
    rw [Nat.and_pow_two_sub_one_eq_mod, Nat.mod_self]

/-- Under the static assertion, the bitmask is the modulus. -/
lemma and_mask_eq_mod {n : Nat} (h : bufszValid n) (x : Nat) :
    x &&& (n - 1) = x % n := by
  obtain ⟨k, rfl⟩ := (bufszValid_iff_pow2 n).mp h
  exact Nat.and_pow_two_sub_one_eq_mod x k

lemma modifyAt_length (l : List (Slot α)) (p : Nat) (f : Slot α → Slot α) :
    (modifyAt l p f).length = l.length := by
  induction l generalizing p with
  | nil => rfl
  | cons s t ih =>
    cases p with
    | zero => rfl
    | succ p => simp [modifyAt, ih]

lemma getD_modifyAt_self (l : List (Slot α)) (p : Nat) (f : Slot α → Slot α)
    (d : Slot α) (hp : p < l.length) :
    (modifyAt l p f).getD p d = f (l.getD p d) := by
  induction l generalizing p with
  | nil => simp at hp
  | cons s t ih =>
    cases p with
    | zero => rfl
    | succ p =>
      simp only [modifyAt, List.getD_cons_succ]
      exact ih p (by simpa using hp)

lemma getD_modifyAt_ne (l : List (Slot α)) (p q : Nat) (f : Slot α → Slot α)
    (d : Slot α) (h : q ≠ p) :
    (modifyAt l p f).getD q d = l.getD q d := by
  induction l generalizing p q with
  | nil => rfl
  | cons s t ih =>
    cases p with
    | zero =>
      cases q with
      | zero => exact absurd rfl h
      | succ q => rfl
    | succ p =>
      cases q with
      | zero => rfl
      | succ q =>
        simp only [modifyAt, List.getD_cons_succ]
        exact ih p q (by omega)

lemma modifyAt_modifyAt_same (l : List (Slot α)) (p : Nat)
    (f g : Slot α → Slot α) :
    modifyAt (modifyAt l p f) p g = modifyAt l p (fun s => g (f s)) := by
  induction l generalizing p with
  | nil => rfl
  | cons s t ih =>
    cases p with
    | zero => rfl
    | succ p => simp [modifyAt, ih]

lemma modifyAt_comm (l : List (Slot α)) (p q : Nat) (f g : Slot α → Slot α)
    (h : p ≠ q) :
    modifyAt (modifyAt l p f) q g = modifyAt (modifyAt l q g) p f := by
  induction l generalizing p q with
  | nil => rfl
  | cons s t ih =>
    cases p with
    | zero =>
      cases q with
      | zero => exact absurd rfl h
      | succ q => rfl
    | succ p =>
      cases q with
      | zero => rfl
      | succ q => simp [modifyAt, ih p q (by omega)]

lemma modifyAt_congr (l : List (Slot α)) (p : Nat) (f g : Slot α → Slot α)
    (h : ∀ s, f s = g s) : modifyAt l p f = modifyAt l p g := by
  induction l generalizing p with
  | nil => rfl
  | cons s t ih =>
    cases p with
    | zero => simp [modifyAt, h]
    | succ p => simp [modifyAt, ih]

lemma modifyAt_id (l : List (Slot α)) (p : Nat) :
    modifyAt l p (fun s => s) = l := by
  induction l generalizing p with
  | nil => rfl
  | cons s t ih =>
    cases p with
    | zero => rfl
    | succ p => simp [modifyAt, ih]

lemma slot_rel_acq (s : Slot α) : s.acq.rel = s := by
  cases s with
  | mk sid base val =>
    cases base with
    | mk c =>
      simp [Slot.acq, Slot.rel, RcuDataItem.acquire, RcuDataItem.release]

lemma slot_acq_rel (s : Slot α) : s.rel.acq = s := by
  cases s with
  | mk sid base val =>
    cases base with
    | mk c =>
      simp [Slot.acq, Slot.rel, RcuDataItem.acquire, RcuDataItem.release]

lemma releaseAt_acquireAt_cancel (l : List (Slot α)) (p : Nat) :
    releaseAt (acquireAt l p) p = l := by
  unfold acquireAt releaseAt
  rw [modifyAt_modifyAt_same,
    modifyAt_congr l p _ (fun s => s) (fun s => slot_rel_acq s), modifyAt_id]

lemma acquireAt_releaseAt_cancel (l : List (Slot α)) (p : Nat) :
    acquireAt (releaseAt l p) p = l := by
  unfold acquireAt releaseAt
  rw [modifyAt_modifyAt_same,
    modifyAt_congr l p _ (fun s => s) (fun s => slot_acq_rel s), modifyAt_id]

lemma releaseAt_acquireAt_comm (l : List (Slot α)) (p q : Nat) :
    releaseAt (acquireAt l p) q = acquireAt (releaseAt l q) p := by
  by_cases h : p = q
  · subst h
    rw [releaseAt_acquireAt_cancel, acquireAt_releaseAt_cancel]
  · unfold acquireAt releaseAt
    exact modifyAt_comm l p q _ _ h

end RcuDataNoWait

namespace RcuDataNoWait

variable {α : Type}

lemma swapAt_length (l : List (Slot α)) (i j : Nat) :
    (swapAt l i j).length = l.length := by
  unfold swapAt
  cases h1 : l[i]? with
  | none => rfl
  | some a =>
    cases h2 : l[j]? with
    | none => rfl
    | some b => simp

lemma getD_swapAt_left (l : List (Slot α)) (i j : Nat) (d : Slot α)
    (hi : i < l.length) (hj : j < l.length) :
    (swapAt l i j).getD i d = l.getD j d := by
  unfold swapAt
  rw [List.getElem?_eq_getElem hi, List.getElem?_eq_getElem hj]
  by_cases hij : i = j
  · subst hij
    simp [List.getD_eq_getElem?_getD, List.getElem?_set, hi,
      List.getElem?_eq_getElem]
  · simp [List.getD_eq_getElem?_getD, List.getElem?_set, hij, Ne.symm hij, hi,
      hj, List.getElem?_eq_getElem]

lemma getD_swapAt_right (l : List (Slot α)) (i j : Nat) (d : Slot α)
    (hi : i < l.length) (hj : j < l.length) :
    (swapAt l i j).getD j d = l.getD i d := by
  unfold swapAt
  rw [List.getElem?_eq_getElem hi, List.getElem?_eq_getElem hj]
  simp [List.getD_eq_getElem?_getD, List.getElem?_set, hj,
    List.getElem?_eq_getElem hi]

lemma getD_swapAt_other (l : List (Slot α)) (i j q : Nat) (d : Slot α)
    (h1 : q ≠ i) (h2 : q ≠ j) :
    (swapAt l i j).getD q d = l.getD q d := by
  unfold swapAt
  cases hi : l[i]? with
  | none => rfl
  | some a =>
    cases hj : l[j]? with
    | none => rfl
    | some b =>
      simp [List.getD_eq_getElem?_getD, List.getElem?_set, Ne.symm h1,
        Ne.symm h2]

lemma get_cons_set_perm {β : Type} :
    ∀ (t : List β) (m : Nat) (hm : m < t.length) (x : β),
      (t.get ⟨m, hm⟩ :: t.set m x).Perm (x :: t) := by
  intro t
  induction t with
  | nil =>
    intro m hm x
    exact absurd hm (by simp)
  | cons y s ih =>
    intro m hm x
    cases m with
    | zero => exact List.Perm.swap x y s
    | succ m =>
      have hm2 : m < s.length := by simpa using hm
      have step1 : (s.get ⟨m, hm2⟩ :: y :: s.set m x).Perm
          (y :: s.get ⟨m, hm2⟩ :: s.set m x) :=
        List.Perm.swap y (s.get ⟨m, hm2⟩) (s.set m x)
      have step2 : (y :: s.get ⟨m, hm2⟩ :: s.set m x).Perm (y :: x :: s) :=
        (ih m hm2 x).cons y
      exact (step1.trans step2).trans (List.Perm.swap x y s)

lemma set_set_perm {β : Type} :
    ∀ (l : List β) (i j : Nat) (hi : i < l.length) (hj : j < l.length),
      ((l.set i (l.get ⟨j, hj⟩)).set j (l.get ⟨i, hi⟩)).Perm l := by
  intro l
  induction l with
  | nil =>
    intro i j hi hj
    exact absurd hi (by simp)
  | cons x t ih =>
    intro i j hi hj
    cases i with
    | zero =>
      cases j with
      | zero => exact List.Perm.refl _
      | succ j =>
        have hj2 : j < t.length := by simpa using hj
        exact get_cons_set_perm t j hj2 x
    | succ i =>
      cases j with
      | zero =>
        have hi2 : i < t.length := by simpa using hi
        exact get_cons_set_perm t i hi2 x
      | succ j =>
        have hi2 : i < t.length := by simpa using hi
        have hj2 : j < t.length := by simpa using hj
        exact (ih i j hi2 hj2).cons x

lemma swapAt_perm (l : List (Slot α)) (i j : Nat) : (swapAt l i j).Perm l := by
  unfold swapAt
  cases h1 : l[i]? with
  | none => exact List.Perm.refl l
  | some a =>
    cases h2 : l[j]? with
    | none => exact List.Perm.refl l
    | some b =>
      obtain ⟨hi, ha⟩ := List.getElem?_eq_some.mp h1
      obtain ⟨hj, hb⟩ := List.getElem?_eq_some.mp h2
      have hp := set_set_perm l i j hi hj
      simp only [List.get_eq_getElem] at hp
      rw [ha, hb] at hp
      show ((l.set i b).set j a).Perm l
      exact hp

end RcuDataNoWait

namespace RcuDataNoWait

variable {α : Type} [Inhabited α]

/-- A successful scan returns the first probed position holding a zero
count. -/
lemma scanFree_eq_some {data : List (Slot α)} {mask fuel : Nat} :
    ∀ {pos p : Nat}, scanFree data mask pos fuel = some p →
      ∃ k < fuel, p = (pos + k) &&& mask ∧
        (data.getD p default).base.queryRefCount = 0 ∧
        ∀ j < k,
          (data.getD ((pos + j) &&& mask) default).base.queryRefCount ≠ 0 := by
  induction fuel with
  | zero => intro pos p h; simp [scanFree] at h
  | succ fuel ih =>
    intro pos p h
    simp only [scanFree] at h
    by_cases h0 : (data.getD (pos &&& mask) default).base.queryRefCount = 0
    · rw [if_pos h0] at h
      refine ⟨0, by omega, ?_, ?_, ?_⟩
      · simpa [Nat.add_zero] using (Option.some_inj.mp h).symm
      · rw [← Option.some_inj.mp h]; exact h0
      · intro j hj; omega
    · rw [if_neg h0] at h
      obtain ⟨k, hk, hp, hz, hmin⟩ := ih h
      refine ⟨k + 1, by omega, ?_, hz, ?_⟩
      · rw [hp]; congr 1; omega
      · intro j hj
        cases j with
        | zero => simpa using h0
        | succ j =>
          have := hmin j (by omega)
          have harith : pos + (j + 1) = pos + 1 + j := by omega
          rw [harith]; exact this

/-- The scan succeeds as soon as one of the probed positions holds a zero
count. -/
lemma scanFree_isSome {data : List (Slot α)} {mask fuel : Nat} :
    ∀ {pos : Nat},
      (∃ k < fuel,
        (data.getD ((pos + k) &&& mask) default).base.queryRefCount = 0) →
      ∃ p, scanFree data mask pos fuel = some p := by
  induction fuel with
  | zero =>
    intro pos h
    obtain ⟨k, hk, _⟩ := h
    omega
  | succ fuel ih =>
    intro pos h
    by_cases h0 : (data.getD (pos &&& mask) default).base.queryRefCount = 0
    · exact ⟨pos &&& mask, by simp only [scanFree]; rw [if_pos h0]⟩
    · obtain ⟨k, hk, hz⟩ := h
      cases k with
      | zero => exact absurd (by simpa using hz) h0
      | succ k =>
        have harith : pos + (k + 1) = pos + 1 + k := by omega
        rw [harith] at hz
        obtain ⟨p, hp⟩ := ih ⟨k, by omega, hz⟩
        exact ⟨p, by simp only [scanFree]; rw [if_neg h0]; exact hp⟩

/-- If every reachable position holds a nonzero count, the scan never
returns, whatever the fuel. -/
lemma scanFree_none {data : List (Slot α)} {mask : Nat}
    (h : ∀ x : Nat, (data.getD (x &&& mask) default).base.queryRefCount ≠ 0) :
    ∀ fuel pos, scanFree data mask pos fuel = none := by
  intro fuel
  induction fuel with
  | zero => intro pos; rfl
  | succ fuel ih =>
    intro pos
    simp only [scanFree]
    rw [if_neg (h pos)]
    exact ih (pos + 1)

/-- Every residue is reached within `N` steps of the wrapping scan. -/
lemma exists_offset_mod (N a q : Nat) (hN : 0 < N) (hq : q < N) :
    ∃ j < N, (a + j) % N = q := by
  refine ⟨(q + N - a % N) % N, Nat.mod_lt _ hN, ?_⟩
  have ha : a % N < N := Nat.mod_lt _ hN
  rw [Nat.add_mod, Nat.mod_mod_of_dvd _ (dvd_refl N)]
  by_cases hle : a % N ≤ q
  · have h1 : (q + N - a % N) % N = q - a % N := by
      have he : q + N - a % N = (q - a % N) + N := by omega
      rw [he, Nat.add_mod_right]
      exact Nat.mod_eq_of_lt (by omega)
    rw [h1]
    have he2 : a % N + (q - a % N) = q := by omega
    rw [he2]
    exact Nat.mod_eq_of_lt hq
  · have h1 : (q + N - a % N) % N = q + N - a % N :=
      Nat.mod_eq_of_lt (by omega)
    rw [h1]
    have he2 : a % N + (q + N - a % N) = q + N := by omega
    rw [he2, Nat.add_mod_right]
    exact Nat.mod_eq_of_lt hq

/-- Adding `c < N` to `x < N` cannot reproduce `x` modulo `N` unless
`c = 0`. -/
lemma mod_cancel_self {N x c : Nat} (hx : x < N) (hc : c < N)
    (h : (x + c) % N = x) : c = 0 := by
  by_cases hxc : x + c < N
  · rw [Nat.mod_eq_of_lt hxc] at h
    omega
  · rw [Nat.mod_eq_sub_mod (by omega), Nat.mod_eq_of_lt (by omega)] at h
    omega

/-- Structure of a successful `initUpdate`: the returned index is always
`(head+1) & (BUFSZ-1)`, the head and the capacity are untouched, and the
array is either untouched (fast path) or the swap of the `head+1` entry
with the entry the scan found (slow path). -/
lemma initUpdate_some_shape {r : RcuDataNoWait α} {fuel : Nat}
    {r1 : RcuDataNoWait α} {pos : Nat}
    (h : r.initUpdate fuel = some (r1, pos)) :
    pos = (r.m_head + 1) &&& (r.bufsz - 1) ∧
    r1.bufsz = r.bufsz ∧ r1.m_head = r.m_head ∧
    ((r1 = r ∧ (r.slotAt pos).base.queryRefCount = 0) ∨
      ((r.slotAt pos).base.queryRefCount ≠ 0 ∧
        ∃ p, scanFree r.m_data (r.bufsz - 1) (r.m_head + 2) fuel = some p ∧
          r1.m_data = swapAt r.m_data pos p)) := by
  simp only [initUpdate] at h
  by_cases h0 :
      (r.slotAt ((r.m_head + 1) &&& (r.bufsz - 1))).base.queryRefCount = 0
  · rw [if_pos h0] at h
    obtain ⟨h1, h2⟩ := Prod.mk.injEq .. ▸ Option.some_inj.mp h
    subst h2
    refine ⟨rfl, by rw [← h1], by rw [← h1], Or.inl ⟨h1.symm, h0⟩⟩
  · rw [if_neg h0] at h
    cases hscan : scanFree r.m_data (r.bufsz - 1) (r.m_head + 2) fuel with
    | none => rw [hscan] at h; simp at h
    | some p =>
      rw [hscan] at h
      obtain ⟨h1, h2⟩ := Prod.mk.injEq .. ▸ Option.some_inj.mp h
      subst h2
      refine ⟨rfl, by rw [← h1], by rw [← h1], Or.inr ⟨h0, p, rfl, by rw [← h1]⟩⟩

end RcuDataNoWait

namespace RcuDataNoWait

variable {α : Type} [Inhabited α]

instance (r : RcuDataNoWait α) : Decidable (WF r) := by
  unfold WF; infer_instance

lemma succ_mod_ne {N h : Nat} (hN : 1 < N) : (h + 1) % N ≠ h % N := by
  intro he
  have hx : h % N < N := Nat.mod_lt _ (by omega)
  have hstep : (h + 1) % N = (h % N + 1) % N := by
    conv_lhs => rw [Nat.add_mod]
    rw [Nat.mod_eq_of_lt hN]
  rw [hstep] at he
  exact absurd (mod_cancel_self hx hN he) one_ne_zero

lemma initUpdate_pos_spec {r : RcuDataNoWait α} {fuel : Nat}
    {r1 : RcuDataNoWait α} {pos : Nat} (hwf : WF r)
    (h : r.initUpdate fuel = some (r1, pos)) :
    pos = (r.m_head + 1) % r.bufsz ∧ pos < r.bufsz := by
  obtain ⟨hv, hlen⟩ := hwf
  obtain ⟨hpos, -, -, -⟩ := initUpdate_some_shape h
  rw [and_mask_eq_mod hv] at hpos
  exact ⟨hpos, hpos ▸ Nat.mod_lt _ (Nat.pos_of_ne_zero hv.1)⟩

lemma initUpdate_preserves {r : RcuDataNoWait α} {fuel : Nat}
    {r1 : RcuDataNoWait α} {pos : Nat} (hwf : WF r)
    (h : r.initUpdate fuel = some (r1, pos)) :
    r1.bufsz = r.bufsz ∧ r1.m_head = r.m_head ∧
      r1.m_data.length = r.m_data.length ∧ WF r1 := by
  obtain ⟨hv, hlen⟩ := hwf
  obtain ⟨-, hb, hh, hcase⟩ := initUpdate_some_shape h
  have hdlen : r1.m_data.length = r.m_data.length := by
    rcases hcase with ⟨heq, -⟩ | ⟨-, p, -, hdata⟩
    · rw [heq]
    · rw [hdata, swapAt_length]
  exact ⟨hb, hh, hdlen, ⟨hb ▸ hv, by rw [hdlen, hb]; exact hlen⟩⟩

lemma initUpdate_origin {r : RcuDataNoWait α} {fuel : Nat}
    {r1 : RcuDataNoWait α} {pos : Nat} (hwf : WF r)
    (h : r.initUpdate fuel = some (r1, pos)) :
    ∃ p < r.bufsz, slotAt r1 pos = slotAt r p ∧ countAt r p = 0 := by
  obtain ⟨hv, hlen⟩ := hwf
  have hNpos : 0 < r.bufsz := Nat.pos_of_ne_zero hv.1
  obtain ⟨hposlt1, hposlt2⟩ := initUpdate_pos_spec ⟨hv, hlen⟩ h
  obtain ⟨-, -, -, hcase⟩ := initUpdate_some_shape h
  rcases hcase with ⟨heq, hz⟩ | ⟨-, p, hscan, hdata⟩
  · exact ⟨pos, hposlt2, by rw [heq], hz⟩
  · obtain ⟨k, hk, hpform, hzp, -⟩ := scanFree_eq_some hscan
    have hpmod : p = (r.m_head + 2 + k) % r.bufsz := by
      rw [hpform, and_mask_eq_mod hv]
    have hplt : p < r.bufsz := hpmod ▸ Nat.mod_lt _ hNpos
    have hslot : slotAt r1 pos = slotAt r p := by
      show r1.m_data.getD pos default = r.m_data.getD p default
      rw [hdata]
      exact getD_swapAt_left r.m_data pos p default (by omega) (by omega)
    exact ⟨p, hplt, hslot, hzp⟩

lemma initUpdate_count_zero {r : RcuDataNoWait α} {fuel : Nat}
    {r1 : RcuDataNoWait α} {pos : Nat} (hwf : WF r)
    (h : r.initUpdate fuel = some (r1, pos)) :
    countAt r1 pos = 0 := by
  obtain ⟨p, -, hslot, hz⟩ := initUpdate_origin hwf h
  show (slotAt r1 pos).base.queryRefCount = 0
  rw [hslot]
  exact hz

lemma initUpdate_frame_spec {r : RcuDataNoWait α} {fuel : Nat}
    {r1 : RcuDataNoWait α} {pos : Nat} (hwf : WF r)
    (h : r.initUpdate fuel = some (r1, pos)) :
    r1.m_data.Perm r.m_data ∧
    ∃ p < r.bufsz, ∀ (i : Nat) (d : Slot α), i ≠ pos → i ≠ p →
      r1.m_data.getD i d = r.m_data.getD i d := by
  obtain ⟨hv, hlen⟩ := hwf
  have hNpos : 0 < r.bufsz := Nat.pos_of_ne_zero hv.1
  obtain ⟨-, hposlt⟩ := initUpdate_pos_spec ⟨hv, hlen⟩ h
  obtain ⟨-, -, -, hcase⟩ := initUpdate_some_shape h
  rcases hcase with ⟨heq, -⟩ | ⟨-, p, hscan, hdata⟩
  · exact ⟨by rw [heq], pos, hposlt, fun i d _ _ => by rw [heq]⟩
  · obtain ⟨k, -, hpform, -, -⟩ := scanFree_eq_some hscan
    have hpmod : p = (r.m_head + 2 + k) % r.bufsz := by
      rw [hpform, and_mask_eq_mod hv]
    have hplt : p < r.bufsz := hpmod ▸ Nat.mod_lt _ hNpos
    refine ⟨by rw [hdata]; exact swapAt_perm r.m_data pos p, p, hplt, ?_⟩
    intro i d hi1 hi2
    rw [hdata]
    exact getD_swapAt_other r.m_data pos p i d hi1 hi2

lemma initUpdate_isSome {r : RcuDataNoWait α} {fuel : Nat} (hwf : WF r)
    (hfuel : r.bufsz ≤ fuel) (hex : ∃ i < r.bufsz, countAt r i = 0) :
    ∃ res, r.initUpdate fuel = some res := by
  obtain ⟨hv, hlen⟩ := hwf
  simp only [initUpdate]
  by_cases h0 :
      (r.slotAt ((r.m_head + 1) &&& (r.bufsz - 1))).base.queryRefCount = 0
  · exact ⟨_, by rw [if_pos h0]⟩
  · obtain ⟨q, hq, hz⟩ := hex
    have hNpos : 0 < r.bufsz := Nat.pos_of_ne_zero hv.1
    obtain ⟨k, hk, hmod⟩ := exists_offset_mod r.bufsz (r.m_head + 2) q hNpos hq
    have hzk : (r.m_data.getD ((r.m_head + 2 + k) &&& (r.bufsz - 1))
        default).base.queryRefCount = 0 := by
      rw [and_mask_eq_mod hv, hmod]
      exact hz
    have hexk : ∃ k2 < fuel, (r.m_data.getD ((r.m_head + 2 + k2) &&&
        (r.bufsz - 1)) default).base.queryRefCount = 0 :=
      ⟨k, by omega, hzk⟩
    obtain ⟨p, hp⟩ := scanFree_isSome hexk
    exact ⟨_, by rw [if_neg h0, hp]⟩

lemma initUpdate_none {r : RcuDataNoWait α} (hwf : WF r)
    (hall : ∀ i < r.bufsz, countAt r i ≠ 0) :
    ∀ fuel, r.initUpdate fuel = none := by
  obtain ⟨hv, hlen⟩ := hwf
  intro fuel
  have hNpos : 0 < r.bufsz := Nat.pos_of_ne_zero hv.1
  have hmask : ∀ x : Nat,
      (r.m_data.getD (x &&& (r.bufsz - 1)) default).base.queryRefCount ≠ 0 := by
    intro x
    rw [and_mask_eq_mod hv]
    exact hall (x % r.bufsz) (Nat.mod_lt _ hNpos)
  have hmask2 : ∀ x : Nat,
      (r.slotAt (x &&& (r.bufsz - 1))).base.queryRefCount ≠ 0 :=
    fun x => hmask x
  simp only [initUpdate]
  rw [if_neg (hmask2 (r.m_head + 1)), scanFree_none hmask fuel (r.m_head + 2)]

end RcuDataNoWait

namespace RcuDataNoWait

variable {α : Type} [Inhabited α]

/-- C2: the slot returned by `initUpdate` has a reference count observed to
be exactly zero at the moment it is selected: the returned object already
lived in the ring with count zero, so a slot with nonzero count (held by a
reader handle) is never returned for overwriting, and after the publisher
writes the new value into the returned slot every object whose count is
nonzero is still in place, unchanged — the value held by an open reader
handle never changes underneath it. -/
theorem initUpdate_selects_unreferenced_slot
    (r : RcuDataNoWait α) (fuel : Nat) (r1 : RcuDataNoWait α) (pos : Nat)
    (hwf : WF r) (h : r.initUpdate fuel = some (r1, pos)) :
    countAt r1 pos = 0 ∧
    (∃ p < r.bufsz, slotAt r p = slotAt r1 pos ∧ countAt r p = 0) ∧
    (∀ (v : α) (q : Nat), countAt r1 q ≠ 0 →
      slotAt (writeSlot r1 pos v) q = slotAt r1 q) := by
  have hz := initUpdate_count_zero hwf h
  refine ⟨hz, ?_, ?_⟩
  · obtain ⟨p, hp, hslot, hc⟩ := initUpdate_origin hwf h
    exact ⟨p, hp, hslot.symm, hc⟩
  · intro v q hq
    have hne : q ≠ pos := fun he => hq (he ▸ hz)
    show (modifyAt r1.m_data pos
      (fun s => s.assignFrom ⟨0, ⟨0⟩, v⟩)).getD q default =
        r1.m_data.getD q default
    exact getD_modifyAt_ne r1.m_data pos q _ default hne

/-- Witness for C2: in `ringEx2`, `initUpdate` selects the zero-count slot
found by the wrapping scan. -/
theorem initUpdate_selects_unreferenced_slot_witness :
    (WF ringEx2 ∧ ringEx2.initUpdate 2 = some (ringEx2AfterInit, 1)) ∧
    (countAt ringEx2AfterInit 1 = 0 ∧
      (∃ p < ringEx2.bufsz, slotAt ringEx2 p = slotAt ringEx2AfterInit 1 ∧
        countAt ringEx2 p = 0) ∧
      (∀ (v : Nat) (q : Nat), countAt ringEx2AfterInit q ≠ 0 →
        slotAt (writeSlot ringEx2AfterInit 1 v) q =
          slotAt ringEx2AfterInit q)) :=
  ⟨⟨by decide, by decide⟩,
    initUpdate_selects_unreferenced_slot ringEx2 2 ringEx2AfterInit 1
      (by decide) (by decide)⟩

/-- C3 counterexample: in `ringEx2` (BUFSZ = 2, head = 0, published slot 0
free, slot 1 held by a reader) `initUpdate` wraps around and returns exactly
the payload object that is currently published at index
`head mod BUFSZ`. -/
theorem initUpdate_published_slot_cex :
    WF ringEx2 ∧
    ringEx2.initUpdate 2 = some (ringEx2AfterInit, 1) ∧
    slotAt ringEx2AfterInit 1 =
      slotAt ringEx2 (ringEx2.m_head % ringEx2.bufsz) := by
  exact ⟨by decide, by decide, by decide⟩

/-- C3 (amended): the slot returned by `initUpdate` is never the currently
published one, provided some slot other than the published one has
reference count zero; without that proviso the wrapping scan (or BUFSZ = 1)
can select the published slot itself. -/
theorem initUpdate_excludes_published_amended
    (r : RcuDataNoWait α) (fuel : Nat) (r1 : RcuDataNoWait α) (pos : Nat)
    (hwf : WF r)
    (hex : ∃ q < r.bufsz, q ≠ r.m_head % r.bufsz ∧ countAt r q = 0)
    (h : r.initUpdate fuel = some (r1, pos)) :
    pos ≠ r.m_head % r.bufsz ∧
    ∃ p < r.bufsz, p ≠ r.m_head % r.bufsz ∧ slotAt r1 pos = slotAt r p ∧
      countAt r p = 0 := by
  obtain ⟨hv, hlen⟩ := hwf
  have hNpos : 0 < r.bufsz := Nat.pos_of_ne_zero hv.1
  have hN : 1 < r.bufsz := by
    by_contra hcon
    obtain ⟨q, hq, hqne, -⟩ := hex
    have hb1 : r.bufsz = 1 := by omega
    exact hqne (by rw [hb1, Nat.mod_one]; omega)
  obtain ⟨hposmask, -, -, hcase⟩ := initUpdate_some_shape h
  have hpos : pos = (r.m_head + 1) % r.bufsz := by
    rw [hposmask, and_mask_eq_mod hv]
  have hposlt : pos < r.bufsz := hpos ▸ Nat.mod_lt _ hNpos
  have hposne : pos ≠ r.m_head % r.bufsz := hpos ▸ succ_mod_ne hN
  refine ⟨hposne, ?_⟩
  rcases hcase with ⟨heq, hz⟩ | ⟨hnz, p, hscan, hdata⟩
  · exact ⟨pos, hposlt, hposne, by rw [heq], hz⟩
  · obtain ⟨k, hk, hpform, hzp, hmin⟩ := scanFree_eq_some hscan
    have hpmod : p = (r.m_head + 2 + k) % r.bufsz := by
      rw [hpform, and_mask_eq_mod hv]
    have hplt : p < r.bufsz := hpmod ▸ Nat.mod_lt _ hNpos
    have hslot : slotAt r1 pos = slotAt r p := by
      show r1.m_data.getD pos default = r.m_data.getD p default
      rw [hdata]
      exact getD_swapAt_left r.m_data pos p default (by omega) (by omega)
    refine ⟨p, hplt, ?_, hslot, hzp⟩
    intro hphead
    have e0 : (r.m_head + 2 + k) % r.bufsz = r.m_head % r.bufsz := by
      rw [← hpmod]
      exact hphead
    have e1 : (r.m_head % r.bufsz + (2 + k) % r.bufsz) % r.bufsz =
        r.m_head % r.bufsz := by
      rw [← Nat.add_mod]
      have ha : r.m_head + (2 + k) = r.m_head + 2 + k := by omega
      rw [ha]
      exact e0
    have hmodz :=
      mod_cancel_self (Nat.mod_lt _ hNpos) (Nat.mod_lt _ hNpos) e1
    have hdvd : r.bufsz ∣ (2 + k) := Nat.dvd_of_mod_eq_zero hmodz
    have hkge : r.bufsz - 2 ≤ k := by
      have := Nat.le_of_dvd (by omega) hdvd
      omega
    obtain ⟨q, hq, hqne, hqz⟩ := hex
    have hqne1 : q ≠ (r.m_head + 1) % r.bufsz := by
      intro hcontra
      apply hnz
      have hqp : q = pos := by rw [hpos, ← hcontra]
      rw [← hqp]
      exact hqz
    obtain ⟨j, hj, hjmod⟩ :=
      exists_offset_mod r.bufsz (r.m_head + 2) q hNpos hq
    have hj2 : j < r.bufsz - 2 := by
      by_contra hcon
      rcases (by omega : j = r.bufsz - 2 ∨ j = r.bufsz - 1) with hje | hje
      · apply hqne
        rw [← hjmod, hje]
        have ha : r.m_head + 2 + (r.bufsz - 2) = r.m_head + r.bufsz := by
          omega
        rw [ha, Nat.add_mod_right]
      · apply hqne1
        rw [← hjmod, hje]
        have ha : r.m_head + 2 + (r.bufsz - 1) = (r.m_head + 1) + r.bufsz := by
          omega
        rw [ha, Nat.add_mod_right]
    apply hmin j (by omega)
    rw [and_mask_eq_mod hv, hjmod]
    exact hqz

/-- Witness for the amended C3: in `ringEx4` slot 1 (distinct from the
published slot 0) is free, and `initUpdate` returns it. -/
theorem initUpdate_excludes_published_amended_witness :
    (WF ringEx4 ∧
      (∃ q < ringEx4.bufsz, q ≠ ringEx4.m_head % ringEx4.bufsz ∧
        countAt ringEx4 q = 0) ∧
      ringEx4.initUpdate 4 = some (ringEx4, 1)) ∧
    (1 ≠ ringEx4.m_head % ringEx4.bufsz ∧
      ∃ p < ringEx4.bufsz, p ≠ ringEx4.m_head % ringEx4.bufsz ∧
        slotAt ringEx4 1 = slotAt ringEx4 p ∧ countAt ringEx4 p = 0) :=
  ⟨⟨by decide, ⟨1, by decide, by decide, by decide⟩, by decide⟩,
    initUpdate_excludes_published_amended ringEx4 4 ringEx4 1 (by decide)
      ⟨1, by decide, by decide, by decide⟩ (by decide)⟩

/-- C5: after `initUpdate` returns, the returned slot handle occupies ring
position `(head+1) mod BUFSZ`, head and capacity are untouched, the array
after the call is a permutation of the array before it (whole handles move,
so no payload contents are copied between objects), and every entry other
than the at most two swapped positions is unchanged. -/
theorem initUpdate_slot_relocation_frame
    (r : RcuDataNoWait α) (fuel : Nat) (r1 : RcuDataNoWait α) (pos : Nat)
    (hwf : WF r) (h : r.initUpdate fuel = some (r1, pos)) :
    pos = (r.m_head + 1) % r.bufsz ∧
    r1.m_head = r.m_head ∧ r1.bufsz = r.bufsz ∧
    r1.m_data.Perm r.m_data ∧
    ∃ p < r.bufsz, ∀ (i : Nat) (d : Slot α), i ≠ pos → i ≠ p →
      r1.m_data.getD i d = r.m_data.getD i d := by
  obtain ⟨hpos, -⟩ := initUpdate_pos_spec hwf h
  obtain ⟨hb, hh, -, -⟩ := initUpdate_preserves hwf h
  obtain ⟨hperm, hframe⟩ := initUpdate_frame_spec hwf h
  exact ⟨hpos, hh, hb, hperm, hframe⟩

/-- Witness for C5 on the swapping path of `ringEx2`. -/
theorem initUpdate_slot_relocation_frame_witness :
    (WF ringEx2 ∧ ringEx2.initUpdate 2 = some (ringEx2AfterInit, 1)) ∧
    (1 = (ringEx2.m_head + 1) % ringEx2.bufsz ∧
      ringEx2AfterInit.m_head = ringEx2.m_head ∧
      ringEx2AfterInit.bufsz = ringEx2.bufsz ∧
      ringEx2AfterInit.m_data.Perm ringEx2.m_data ∧
      ∃ p < ringEx2.bufsz, ∀ (i : Nat) (d : Slot Nat), i ≠ 1 → i ≠ p →
        ringEx2AfterInit.m_data.getD i d = ringEx2.m_data.getD i d) :=
  ⟨⟨by decide, by decide⟩,
    initUpdate_slot_relocation_frame ringEx2 2 ringEx2AfterInit 1 (by decide)
      (by decide)⟩

/-- C6: with the reference counts held fixed, `initUpdate` (its scan given
at least `BUFSZ` probes of fuel) terminates exactly when some slot of the
ring has reference count zero; when it terminates it returns a zero-count
slot, and when every slot is referenced it returns nothing however much
fuel the scan is given. -/
theorem initUpdate_terminates_iff_free
    (r : RcuDataNoWait α) (fuel : Nat) (hwf : WF r)
    (hfuel : r.bufsz ≤ fuel) :
    ((∃ res, r.initUpdate fuel = some res) ↔
      ∃ i < r.bufsz, countAt r i = 0) ∧
    ((∀ i < r.bufsz, countAt r i ≠ 0) → ∀ f, r.initUpdate f = none) ∧
    (∀ (f : Nat) (r1 : RcuDataNoWait α) (pos : Nat),
      r.initUpdate f = some (r1, pos) → countAt r1 pos = 0) := by
  refine ⟨⟨?_, ?_⟩, initUpdate_none hwf,
    fun f r1 pos hf => initUpdate_count_zero hwf hf⟩
  · rintro ⟨⟨r1, pos⟩, hres⟩
    obtain ⟨p, hp, -, hc⟩ := initUpdate_origin hwf hres
    exact ⟨p, hp, hc⟩
  · exact initUpdate_isSome hwf hfuel

/-- Witness for C6 at `ringEx4` with fuel 4. -/
theorem initUpdate_terminates_iff_free_witness :
    (WF ringEx4 ∧ ringEx4.bufsz ≤ 4) ∧
    (((∃ res, ringEx4.initUpdate 4 = some res) ↔
        ∃ i < ringEx4.bufsz, countAt ringEx4 i = 0) ∧
      ((∀ i < ringEx4.bufsz, countAt ringEx4 i ≠ 0) →
        ∀ f, ringEx4.initUpdate f = none) ∧
      (∀ (f : Nat) (r1 : RcuDataNoWait Nat) (pos : Nat),
        ringEx4.initUpdate f = some (r1, pos) → countAt r1 pos = 0)) :=
  ⟨⟨by decide, by decide⟩,
    initUpdate_terminates_iff_free ringEx4 4 (by decide) (by decide)⟩

/-- C9: BUFSZ = 1 passes the static power-of-two validation, the starting
position `(head+1) mod 1` of `initUpdate`'s search coincides with the head
position, and whenever the single slot's count is zero `initUpdate` returns
the currently published slot itself for the publisher to overwrite. -/
theorem bufszOne_initUpdate_returns_published
    (r : RcuDataNoWait α) (fuel : Nat) (h1 : r.bufsz = 1)
    (hlen : r.m_data.length = 1) (h0 : countAt r 0 = 0) :
    bufszValid 1 ∧
    (r.m_head + 1) % 1 = r.m_head % 1 ∧
    r.initUpdate fuel = some (r, 0) ∧
    slotAt r 0 = publisherRead r := by
  refine ⟨by decide, by simp [Nat.mod_one], ?_, ?_⟩
  · have h02 : (r.slotAt 0).base.queryRefCount = 0 := h0
    simp only [initUpdate, h1]
    rw [show (1 : Nat) - 1 = 0 from rfl, Nat.and_zero, if_pos h02]
  · show slotAt r 0 = slotAt r (r.m_head &&& (r.bufsz - 1))
    have hm : r.m_head &&& (r.bufsz - 1) = 0 := by simp [h1]
    rw [hm]

/-- Witness for C9 at `ringEx1`. -/
theorem bufszOne_initUpdate_returns_published_witness :
    (ringEx1.bufsz = 1 ∧ ringEx1.m_data.length = 1 ∧
      countAt ringEx1 0 = 0) ∧
    (bufszValid 1 ∧ (ringEx1.m_head + 1) % 1 = ringEx1.m_head % 1 ∧
      ringEx1.initUpdate 3 = some (ringEx1, 0) ∧
      slotAt ringEx1 0 = publisherRead ringEx1) :=
  ⟨⟨by decide, by decide, by decide⟩,
    bufszOne_initUpdate_returns_published ringEx1 3 (by decide) (by decide)
      (by decide)⟩

end RcuDataNoWait

namespace RcuDataNoWait

variable {α : Type} [Inhabited α]

lemma modifyAt_ge_length (l : List (Slot α)) (p : Nat) (f : Slot α → Slot α)
    (h : l.length ≤ p) : modifyAt l p f = l := by
  induction l generalizing p with
  | nil => rfl
  | cons s t ih =>
    cases p with
    | zero => simp at h
    | succ p =>
      simp only [modifyAt, List.cons.injEq, true_and]
      exact ih p (by simpa using h)

/-- Net effect of the retry loop when the `unique_ptr` already owns the
object at index `q`: that object is released exactly once and the finally
returned object is acquired exactly once, however many retries happen. -/
lemma readAux_some_spec {mask : Nat} :
    ∀ (obs : List Nat) (data : List (Slot α)) (q cur : Nat),
      ∃ p, readAux data mask (some q) cur obs =
        (acquireAt (releaseAt data q) p, p) := by
  intro obs
  induction obs with
  | nil =>
    intro data q cur
    refine ⟨cur &&& mask, ?_⟩
    simp only [readAux]
    rw [releaseAt_acquireAt_comm]
  | cons h rest ih =>
    intro data q cur
    by_cases hc : h = cur
    · refine ⟨cur &&& mask, ?_⟩
      simp only [readAux]
      rw [if_pos hc, releaseAt_acquireAt_comm]
    · obtain ⟨p, hp⟩ :=
        ih (releaseAt (acquireAt data (cur &&& mask)) q) (cur &&& mask) h
      refine ⟨p, ?_⟩
      simp only [readAux]
      rw [if_neg hc, hp, releaseAt_acquireAt_comm, releaseAt_acquireAt_cancel]

/-- Net effect of a completed `read()` loop: exactly one slot ends up
acquired, the one the returned handle owns. -/
lemma readAux_none_spec {mask : Nat} (obs : List Nat) (data : List (Slot α))
    (cur : Nat) :
    ∃ p, readAux data mask none cur obs = (acquireAt data p, p) := by
  cases obs with
  | nil => exact ⟨cur &&& mask, by simp only [readAux]⟩
  | cons h rest =>
    by_cases hc : h = cur
    · exact ⟨cur &&& mask, by simp only [readAux]; rw [if_pos hc]⟩
    · obtain ⟨p, hp⟩ :=
        readAux_some_spec rest (acquireAt data (cur &&& mask)) (cur &&& mask) h
      refine ⟨p, ?_⟩
      simp only [readAux]
      rw [if_neg hc, hp, releaseAt_acquireAt_cancel]

lemma read_eq (r : RcuDataNoWait α) (obs : List Nat) :
    ∃ p, r.read obs = ({ r with m_data := acquireAt r.m_data p }, p) := by
  obtain ⟨p, hp⟩ := @readAux_none_spec α _ (r.bufsz - 1) obs r.m_data r.m_head
  exact ⟨p, by simp only [read, hp]⟩

lemma doReads_eq :
    ∀ (obss : List (List Nat)) (r : RcuDataNoWait α),
      ∃ ps, doReads r obss = ({ r with m_data := acquireList r.m_data ps }, ps) := by
  intro obss
  induction obss with
  | nil => intro r; exact ⟨[], rfl⟩
  | cons obs rest ih =>
    intro r
    obtain ⟨p, hp⟩ := read_eq r obs
    obtain ⟨ps, hps⟩ := ih { r with m_data := acquireAt r.m_data p }
    refine ⟨p :: ps, ?_⟩
    simp only [doReads, hp, hps]
    rfl

lemma releaseAll_eq :
    ∀ (ps : List Nat) (r : RcuDataNoWait α),
      releaseAll r ps = { r with m_data := releaseList r.m_data ps } := by
  intro ps
  induction ps with
  | nil => intro r; rfl
  | cons p t ih =>
    intro r
    show releaseAll (releaseHandle r p) t = _
    rw [ih (releaseHandle r p)]
    rfl

lemma releaseAt_acquireList :
    ∀ (xs : List Nat) (d : List (Slot α)) (q : Nat),
      releaseAt (acquireList d xs) q = acquireList (releaseAt d q) xs := by
  intro xs
  induction xs with
  | nil => intro d q; rfl
  | cons x t ih =>
    intro d q
    show releaseAt (acquireList (acquireAt d x) t) q = _
    rw [ih (acquireAt d x) q, releaseAt_acquireAt_comm]
    rfl

lemma releaseList_acquireList_cancel :
    ∀ (ps qs : List Nat) (d : List (Slot α)),
      releaseList (acquireList d (ps ++ qs)) ps = acquireList d qs := by
  intro ps
  induction ps with
  | nil => intro qs d; rfl
  | cons p t ih =>
    intro qs d
    show releaseList (releaseAt (acquireList (acquireAt d p) (t ++ qs)) p) t = _
    rw [releaseAt_acquireList, releaseAt_acquireAt_cancel]
    exact ih qs d

lemma count_getD_acquireAt_ge (d : List (Slot α)) (p q : Nat) (dflt : Slot α) :
    (d.getD q dflt).base.queryRefCount ≤
      ((acquireAt d p).getD q dflt).base.queryRefCount := by
  by_cases hq : q = p
  · subst hq
    by_cases hlt : q < d.length
    · rw [show acquireAt d q = modifyAt d q Slot.acq from rfl,
        getD_modifyAt_self d q _ dflt hlt]
      simp only [Slot.acq, RcuDataItem.acquire, RcuDataItem.queryRefCount]
      omega
    · rw [show acquireAt d q = modifyAt d q Slot.acq from rfl,
        modifyAt_ge_length d q _ (by omega)]
  · rw [show acquireAt d p = modifyAt d p Slot.acq from rfl,
      getD_modifyAt_ne d p q _ dflt hq]

lemma count_getD_acquireList_ge :
    ∀ (ps : List Nat) (d : List (Slot α)) (q : Nat) (dflt : Slot α),
      (d.getD q dflt).base.queryRefCount ≤
        ((acquireList d ps).getD q dflt).base.queryRefCount := by
  intro ps
  induction ps with
  | nil => intro d q dflt; exact le_refl _
  | cons p t ih =>
    intro d q dflt
    exact le_trans (count_getD_acquireAt_ge d p q dflt) (ih (acquireAt d p) q dflt)

/-- C4: every completed `read()` call is reference-count balanced: its net
effect is exactly one increment, on the slot the returned scoped handle
owns (each retry released the discarded candidate exactly once), and the
handle's destruction decrements that slot exactly once; hence any sequence
of `read()` calls followed by the release of all their handles restores
every reference count exactly, after releasing any prefix of the handles no
count is below its initial value, and from an all-zero start the counts
return to zero and never go negative. -/
theorem read_refcounts_balanced
    (r : RcuDataNoWait α) (obss : List (List Nat)) (obs : List Nat)
    (pre suf : List Nat) :
    (r.read obs).1.m_data = acquireAt r.m_data (r.read obs).2 ∧
    releaseAll (doReads r obss).1 (doReads r obss).2 = r ∧
    ((doReads r obss).2 = pre ++ suf →
      ∀ (q : Nat) (dflt : Slot α),
        (r.m_data.getD q dflt).base.queryRefCount ≤
          ((releaseAll (doReads r obss).1 pre).m_data.getD q
            dflt).base.queryRefCount) ∧
    ((∀ q : Nat, countAt r q = 0) →
      ∀ q : Nat,
        countAt (releaseAll (doReads r obss).1 (doReads r obss).2) q = 0) := by
  obtain ⟨ps, hps⟩ := doReads_eq obss r
  have hfull : releaseAll (doReads r obss).1 (doReads r obss).2 = r := by
    rw [hps, releaseAll_eq]
    show ({ r with m_data := releaseList (acquireList r.m_data ps) ps } : RcuDataNoWait α) = r
    have hc := releaseList_acquireList_cancel ps [] r.m_data
    rw [List.append_nil] at hc
    rw [hc]
    rfl
  refine ⟨?_, hfull, ?_, ?_⟩
  · obtain ⟨p, hp⟩ := read_eq r obs
    rw [hp]
  · intro hsplit q dflt
    rw [hps] at hsplit
    have hsplit2 : ps = pre ++ suf := hsplit
    subst hsplit2
    rw [hps, releaseAll_eq]
    show (r.m_data.getD q dflt).base.queryRefCount ≤ ((releaseList (acquireList r.m_data (pre ++ suf)) pre).getD q dflt).base.queryRefCount
    rw [releaseList_acquireList_cancel]
    exact count_getD_acquireList_ge suf r.m_data q dflt
  · intro hzero q
    rw [hfull]
    exact hzero q

/-- Witness for C4: two reads on `ringEx4`, the second retrying once after
an observed head change; releasing the first handle leaves every count at
or above its initial (zero) value. -/
theorem read_refcounts_balanced_witness :
    ((doReads ringEx4 [[], [1]]).2 = [0] ++ [1]) ∧
    (∀ (q : Nat) (dflt : Slot Nat),
      (ringEx4.m_data.getD q dflt).base.queryRefCount ≤
        ((releaseAll (doReads ringEx4 [[], [1]]).1 [0]).m_data.getD q
          dflt).base.queryRefCount) :=
  ⟨by decide,
    (read_refcounts_balanced ringEx4 [[], [1]] [1] [0] [1]).2.2.1 (by decide)⟩

end RcuDataNoWait

namespace RcuDataNoWait

variable {α : Type} [Inhabited α]

lemma val_getD_modifyAt_acq (d : List (Slot α)) (p q : Nat) (dflt : Slot α) :
    ((acquireAt d p).getD q dflt).val = (d.getD q dflt).val := by
  by_cases hq : q = p
  · subst hq
    by_cases hlt : q < d.length
    · rw [show acquireAt d q = modifyAt d q Slot.acq from rfl,
        getD_modifyAt_self d q _ dflt hlt]
      rfl
    · rw [show acquireAt d q = modifyAt d q Slot.acq from rfl,
        modifyAt_ge_length d q _ (by omega)]
  · rw [show acquireAt d p = modifyAt d p Slot.acq from rfl,
      getD_modifyAt_ne d p q _ dflt hq]

/-- A `read()` that observes a stable head returns the handle of the slot at
`head & (BUFSZ-1)` and its payload value. -/
lemma readValue_quiescent (r : RcuDataNoWait α) (obs : List Nat)
    (hobs : ∀ x ∈ obs, x = r.m_head) :
    readValue r obs = (slotAt r (r.m_head &&& (r.bufsz - 1))).val := by
  have h1 : r.read obs =
      ({ r with m_data := acquireAt r.m_data (r.m_head &&& (r.bufsz - 1)) },
        r.m_head &&& (r.bufsz - 1)) := by
    cases obs with
    | nil => simp only [read, readAux]
    | cons h rest =>
      have hh : h = r.m_head := hobs h (by simp)
      simp only [read, readAux]
      rw [if_pos hh]
  show (slotAt (r.read obs).1 (r.read obs).2).val = _
  rw [h1]
  exact val_getD_modifyAt_acq r.m_data _ _ default

/-- One complete sequential update cycle advances the head by one and makes
the value written into the staged slot the published value. -/
lemma updateCycle_some_spec {r : RcuDataNoWait α} {v : α} {fuel : Nat}
    {r2 : RcuDataNoWait α} (hwf : WF r)
    (h : updateCycle r v fuel = some r2) :
    WF r2 ∧ r2.m_head = r.m_head + 1 ∧ r2.bufsz = r.bufsz ∧
    (slotAt r2 (r2.m_head % r2.bufsz)).val = v := by
  obtain ⟨hv, hlen⟩ := hwf
  simp only [updateCycle] at h
  cases hres : r.initUpdate fuel with
  | none => rw [hres] at h; simp at h
  | some res =>
    rw [hres] at h
    obtain ⟨r1, pos⟩ := res
    have h2 : r2 = (writeSlot r1 pos v).commitUpdate := (Option.some_inj.mp h).symm
    obtain ⟨hpos, hposlt⟩ := initUpdate_pos_spec ⟨hv, hlen⟩ hres
    obtain ⟨hb, hh, hdlen, hwf1⟩ := initUpdate_preserves ⟨hv, hlen⟩ hres
    have hbufsz : r2.bufsz = r.bufsz := by rw [h2]; exact hb
    have hhead : r2.m_head = r.m_head + 1 := by
      rw [h2]
      show r1.m_head + 1 = r.m_head + 1
      rw [hh]
    have hdata : r2.m_data =
        modifyAt r1.m_data pos (fun s => s.assignFrom ⟨0, ⟨0⟩, v⟩) := by
      rw [h2]
      rfl
    have hlen2 : r2.m_data.length = r.bufsz := by
      rw [hdata, modifyAt_length, hdlen, hlen]
    refine ⟨⟨hbufsz ▸ hv, by rw [hlen2, hbufsz]⟩, hhead, hbufsz, ?_⟩
    have hposeq : r2.m_head % r2.bufsz = pos := by
      rw [hhead, hbufsz, ← hpos]
    rw [hposeq]
    show (r2.m_data.getD pos default).val = v
    rw [hdata, getD_modifyAt_self r1.m_data pos _ default (by omega)]
    rfl

/-- C1: for every sequence of complete sequential update cycles
(`publisherRead` to copy the current value, write the new value into the
slot returned by `initUpdate`, `commitUpdate`), a `read()` performed after
the last commit (observing the then-stable head) returns a handle whose
payload is exactly the last committed value. -/
theorem commit_then_read_returns_committed_value
    (r : RcuDataNoWait α) (vs : List α) (v : α) (fuel : Nat)
    (r2 : RcuDataNoWait α) (obs : List Nat) (hwf : WF r)
    (h : applyCycles r (vs ++ [v]) fuel = some r2)
    (hobs : ∀ x ∈ obs, x = r2.m_head) :
    readValue r2 obs = v := by
  induction vs generalizing r with
  | nil =>
    have hone : updateCycle r v fuel = some r2 := by
      simp only [applyCycles, List.nil_append, List.foldlM_cons,
        List.foldlM_nil] at h
      simpa using h
    obtain ⟨hwf2, -, -, hval⟩ := updateCycle_some_spec hwf hone
    rw [readValue_quiescent r2 obs hobs, and_mask_eq_mod hwf2.1]
    exact hval
  | cons w vs ih =>
    simp only [applyCycles, List.cons_append, List.foldlM_cons] at h
    rw [Option.bind_eq_bind] at h
    obtain ⟨r1, hr1, hrest⟩ := Option.bind_eq_some.mp h
    obtain ⟨hwf1, -, -, -⟩ := updateCycle_some_spec hwf hr1
    exact ih r1 hwf1 hrest

/-- Witness for C1: two update cycles on `ringEx4` publishing 7 then 9; a
subsequent quiescent `read()` observes 9. -/
theorem commit_then_read_returns_committed_value_witness :
    (WF ringEx4 ∧
      applyCycles ringEx4 ([7] ++ [9]) 4 = some ringEx4After2 ∧
      (∀ x ∈ ([] : List Nat), x = ringEx4After2.m_head)) ∧
    readValue ringEx4After2 [] = 9 :=
  ⟨⟨by decide, by decide, by simp⟩,
    commit_then_read_returns_committed_value ringEx4 [7] 9 4 ringEx4After2 []
      (by decide) (by decide) (by simp)⟩

/-- C7: constructing a ring from `N` supplied payload instances yields
`head = 0` and `slot[i]` = the i-th supplied instance for every `i < N`,
provided `N` passes the static validation; and the `static_assert`
predicate accepts exactly the nonzero powers of two, so a zero or
non-power-of-two `N` is rejected by this structural validation, not
reported at run time. -/
theorem construction_from_instances
    (n : Nat) (init : List (Slot α)) (hlen : init.length = n)
    (hval : bufszValid n) :
    (bufszValid n ↔ ∃ k, n = 2 ^ k) ∧
    (ofList n init).m_head = 0 ∧
    WF (ofList n init) ∧
    ∀ i, i < n → slotAt (ofList n init) i = init.getD i default := by
  refine ⟨bufszValid_iff_pow2 n, rfl, ⟨hval, hlen⟩, ?_⟩
  intro i _
  rfl

/-- Witness for C7 at N = 4. -/
theorem construction_from_instances_witness :
    (ringEx4.m_data.length = 4 ∧ bufszValid 4) ∧
    ((bufszValid 4 ↔ ∃ k, 4 = 2 ^ k) ∧
      (ofList 4 ringEx4.m_data).m_head = 0 ∧
      WF (ofList 4 ringEx4.m_data) ∧
      ∀ i, i < 4 → slotAt (ofList 4 ringEx4.m_data) i =
        ringEx4.m_data.getD i default) :=
  ⟨⟨by decide, by decide⟩,
    construction_from_instances 4 ringEx4.m_data (by decide) (by decide)⟩

end RcuDataNoWait
